import Mathlib

/-! Verification model of the move-selection editor extension, translated from
src/extension.ts. Documents are modeled as lists of lines, lines as lists of
characters, and filesystem paths as lists of path components. External host
APIs (vscode text edits, glob matching, gitignore-to-glob conversion, mkdirp)
are modeled by their documented semantics; the extension code itself is
translated function by function. -/

/-- A line of text, as a list of characters. -/
abbrev TextLine := List Char

/-- A document, as the list of its lines (the vscode TextDocument line model). -/
abbrev TextDoc := List TextLine

/-- A position in a document: line index and character column, as in vscode. -/
abbrev TextPos := Nat × Nat

/-- Split a flat text on newline characters into lines; the result is always
nonempty. -/
def splitLines : List Char → List TextLine
  | [] => [[]]
  | c :: rest =>
    if c = '\n' then [] :: splitLines rest
    else
      match splitLines rest with
      | [] => [[c]]
      | h :: t => (c :: h) :: t

/-- Join lines back into flat text with newline separators. -/
def joinLines : List TextLine → List Char
  | [] => []
  | [l] => l
  | l :: l2 :: ls => l ++ '\n' :: joinLines (l2 :: ls)

/-- Character offset of the start of line l in the flat text of a document:
each earlier line contributes its length plus one separator. -/
def lineStart : TextDoc → Nat → Nat
  | _, 0 => 0
  | [], _ + 1 => 0
  | l :: ls, n + 1 => l.length + 1 + lineStart ls n

/-- Character offset of a position in the flat text of a document. -/
def docOffset (d : TextDoc) (p : TextPos) : Nat := lineStart d p.1 + p.2

/-- Text of a document between two positions: the vscode getText of a range,
which returns the flat text between the two offsets. -/
def getTextRange (d : TextDoc) (s e : TextPos) : List Char :=
  ((joinLines d).take (docOffset d e)).drop (docOffset d s)

/-- A vscode delete edit for the range between two positions: the lines before
the range, one joined line made of the head of the start line and the tail of
the end line, then the lines after the range. -/
def deleteRange (d : TextDoc) (s e : TextPos) : TextDoc :=
  d.take s.1 ++ ((d.getD s.1 []).take s.2 ++ (d.getD e.1 []).drop e.2) :: d.drop (e.1 + 1)

/-- A vscode insert edit of text t at line l, column c: the inserted text is
spliced into line l and split on its newline characters. -/
def insertAt (d : TextDoc) (l c : Nat) (t : List Char) : TextDoc :=
  d.take l ++ splitLines ((d.getD l []).take c ++ t ++ (d.getD l []).drop c) ++ d.drop (l + 1)

/-- The existing-file branch of the command, extension.ts lines 405 to 418:
read the selected text, delete the selection from the source editor, then
insert a newline followed by the selected text at the end of the last line of
the target document (lineAt lineCount minus one, range end). Returns the
source document and the target document after the edits. -/
def moveSelectionToExistingFile (src : TextDoc) (s e : TextPos) (tgt : TextDoc) :
    TextDoc × TextDoc :=
  let selectionText := getTextRange src s e
  let srcAfter := deleteRange src s e
  let lastLine := tgt.length - 1
  let tgtAfter := insertAt tgt lastLine ((tgt.getD lastLine []).length) ('\n' :: selectionText)
  (srcAfter, tgtAfter)

/-- WorkspaceRoot record from extension.ts. -/
structure WorkspaceRoot where
  rootPath : String
  baseName : String
  multi : Bool
deriving DecidableEq

/-- FSLocation record from extension.ts, with paths as component lists. -/
structure FSLocation where
  relative : List String
  absolute : List String
deriving DecidableEq

/-- DirectoryOption record from extension.ts. -/
structure DirectoryOption where
  displayText : String
  fsLocation : FSLocation
deriving DecidableEq

/-- A JavaScript value as far as the cache is concerned: the stored kinds the
code can meet, tagged so that the typeof test can be modeled. -/
inductive JSValue where
  | str (s : String)
  | num (n : Int)
  | boolV (b : Bool)
  | nullV
  | obj (o : DirectoryOption)
  | arr (l : List String)
deriving DecidableEq

/-- The JavaScript typeof test used at extension.ts line 238: typeof v equals
the string object. Objects, arrays and null all have typeof object. -/
def typeofIsObject : JSValue → Bool
  | .obj _ => true
  | .nullV => true
  | .arr _ => true
  | _ => false

/-- The per-workspace cache, restricted to the two keys the extension uses.
A field of none models an absent key (vscode-cache has returns false). -/
structure CacheState where
  last : Option JSValue
  recentRoots : Option JSValue
deriving DecidableEq

/-- lastSelection from extension.ts lines 234 to 244: if the cache has no
last entry return nothing, if the stored value has typeof object return it,
otherwise forget the entry and return nothing. The returned pair is the
result together with the cache state afterwards. -/
def lastSelection (c : CacheState) : Option JSValue × CacheState :=
  match c.last with
  | none => (none, c)
  | some v =>
    if typeofIsObject v then (some v, c)
    else (none, { c with last := none })

/-- The recentRoots list read at extension.ts line 336: the stored array, or
the empty list when the key is absent (the or-else with an empty array). -/
def recentRootsList (c : CacheState) : List String :=
  match c.recentRoots with
  | some (JSValue.arr l) => l
  | _ => []

/-- JavaScript indexOf followed by splice of one element: remove the first
occurrence of s, if any (extension.ts lines 338 to 339). -/
def jsListErase (s : String) : List String → List String
  | [] => []
  | t :: rest => if t = s then rest else t :: jsListErase s rest

/-- Number of occurrences of a string in a list. -/
def countOcc (s : String) : List String → Nat
  | [] => 0
  | t :: rest => (if t = s then 1 else 0) + countOcc s rest

/-- cacheSelection from extension.ts lines 329 to 343: store the chosen
directory under last, remove the first occurrence of the chosen root path
from recentRoots, and put it at the front. -/
def cacheSelection (c : CacheState) (dir : DirectoryOption) (root : WorkspaceRoot) :
    CacheState :=
  { last := some (JSValue.obj dir),
    recentRoots := some (JSValue.arr
      (root.rootPath :: jsListErase root.rootPath (recentRootsList c))) }

/-- The active editor state the command reads: its document and the selection. -/
structure EditorState where
  document : TextDoc
  selStart : TextPos
  selEnd : TextPos
deriving DecidableEq

/-- getText of the current selection (extension.ts line 366). -/
def getSelectionText (ed : EditorState) : List Char :=
  getTextRange ed.document ed.selStart ed.selEnd

/-- The one-line user-facing error messages the command can show. noTextSelected
stands for the literal message about no selected text (extension.ts line 368),
noFolderOpened for the literal message about no opened folder (line 439). -/
inductive ErrMsg where
  | noTextSelected
  | noFolderOpened
deriving DecidableEq

/-- How the precondition phase of the command ends. -/
inductive CommandOutcome where
  | abortedNoEditor
  | abortedEmptySelection
  | abortedNoWorkspace
  | proceeded
deriving DecidableEq

/-- Observable result of the precondition phase: the outcome, every error
message shown, and the editor state afterwards (none when there is no editor). -/
structure PrecheckResult where
  outcome : CommandOutcome
  errorMessages : List ErrMsg
  editorAfter : Option EditorState
deriving DecidableEq

/-- The precondition phase of the command, extension.ts lines 362 to 377 and
437 to 442: return silently when there is no active editor; show the
no-text message and return when the selection is empty; show the no-folder
message when there is no workspace root; otherwise proceed. No branch edits
the document, so the editor state is passed through unchanged. -/
def commandPrecheck (activeEditor : Option EditorState) (roots : List WorkspaceRoot) :
    PrecheckResult :=
  match activeEditor with
  | none => ⟨.abortedNoEditor, [], none⟩
  | some ed =>
    if (getSelectionText ed).length = 0 then
      ⟨.abortedEmptySelection, [.noTextSelected], some ed⟩
    else if roots.length > 0 then
      ⟨.proceeded, [], some ed⟩
    else
      ⟨.abortedNoWorkspace, [.noFolderOpened], some ed⟩

/-- One segment of a glob pattern: a literal path component, a single-component
wildcard, or the any-depth wildcard. -/
inductive GlobSeg where
  | lit (s : String)
  | star
  | dstar
deriving DecidableEq

/-- All suffixes of a component list, longest first. -/
def tailsList : List String → List (List String)
  | [] => [[]]
  | x :: xs => (x :: xs) :: tailsList xs

/-- Glob pattern matching over path components: a literal matches itself, star
matches exactly one component, dstar matches any number of components. -/
def matchSegs : List GlobSeg → List String → Bool
  | [], path => path.isEmpty
  | .dstar :: ps, path => (tailsList path).any fun t => matchSegs ps t
  | .lit _ :: _, [] => false
  | .lit s :: ps, t :: rest => s == t && matchSegs ps rest
  | .star :: _, [] => false
  | .star :: ps, _ :: rest => matchSegs ps rest

/-- A glob pattern: an optional leading negation mark and the segments. -/
structure Glob where
  negated : Bool
  segs : List GlobSeg
deriving DecidableEq

/-- Whether a non-negated glob matches a path. -/
def matchGlob (g : Glob) (p : List String) : Bool := matchSegs g.segs p

/-- invertGlob from extension.ts lines 39 to 41: strip a leading negation
mark if present, leave the pattern otherwise unchanged. -/
def invertGlob (g : Glob) : Glob := { g with negated := false }

/-- One line of a gitignore file: a comment, a blank line, or a pattern with
an optional leading negation mark. -/
inductive GitignoreLine where
  | comment
  | blank
  | pat (negated : Bool) (segs : List GlobSeg)
deriving DecidableEq

/-- The two globs the gitignore-to-glob package emits for one pattern: the
pattern itself and the pattern followed by the any-depth wildcard. -/
def globPair (negated : Bool) (segs : List GlobSeg) : List Glob :=
  [⟨negated, segs⟩, ⟨negated, segs ++ [GlobSeg.dstar]⟩]

/-- The gitignore-to-glob package: drop comments and blank lines, flip the
negation of every pattern (gitignore lines say what to ignore, the produced
globs say what to include), and emit the pattern with and without the
trailing any-depth wildcard. -/
def gitignoreToGlob : List GitignoreLine → List Glob
  | [] => []
  | .pat negated segs :: rest => globPair (!negated) segs ++ gitignoreToGlob rest
  | _ :: rest => gitignoreToGlob rest

/-- configIgnoredGlobs from extension.ts lines 66 to 77: keep the configured
exclude keys whose value is true and convert them through gitignore-to-glob
as non-negated patterns. The merged configuration object is taken as input. -/
def configIgnoredGlobs (config : List (List GlobSeg × Bool)) : List Glob :=
  gitignoreToGlob ((config.filter fun kv => kv.2).map fun kv => GitignoreLine.pat false kv.1)

/-- gitignoreGlobs from extension.ts lines 61 to 64: convert every walked-up
gitignore file and concatenate the results (reduce with flatten). The file
contents are taken as input. -/
def gitignoreGlobs : List (List GitignoreLine) → List Glob
  | [] => []
  | f :: rest => gitignoreToGlob f ++ gitignoreGlobs rest

/-- One entry of the filesystem walk under a root: its relative path and
whether stat reports a directory. -/
structure FSEntry where
  path : List String
  isDir : Bool
deriving DecidableEq

/-- The ignore list built in directoriesSync, extension.ts lines 80 to 82:
gitignore globs, then configured exclude globs, each inverted. -/
def ignoreGlobsFor (gitignoreFiles : List (List GitignoreLine))
    (config : List (List GlobSeg × Bool)) : List Glob :=
  (gitignoreGlobs gitignoreFiles ++ configIgnoredGlobs config).map invertGlob

/-- directoriesSync from extension.ts lines 79 to 97: glob every entry under
the root except those matching an ignore glob, keep the directories, and build
FSLocation records from the relative and absolute paths. The filesystem walk
and the walked-up gitignore contents are taken as input. -/
def directoriesSync (root : List String) (entries : List FSEntry)
    (gitignoreFiles : List (List GitignoreLine))
    (config : List (List GlobSeg × Bool)) : List FSLocation :=
  (((entries.filter fun e =>
      !((ignoreGlobsFor gitignoreFiles config).any fun g => matchGlob g e.path)).filter
      fun e => e.isDir).map
    fun e => { relative := e.path, absolute := root ++ e.path })

/-- The file name looked up by walkupGitignores. -/
def gitignoreName : String := ".gitignore"

/-- path.resolve of a directory and two dots: drop the last component; the
filesystem root is its own parent. -/
def parentDir (dir : List String) : List String := dir.dropLast

/-- walkupGitignores from extension.ts lines 43 to 55: collect the gitignore
path of every directory on the walk from dir up to the filesystem root that
has one, stopping exactly when a directory equals its own parent. The
recursion is well founded because taking the parent shortens the path. -/
def walkupGitignores (hasGitignore : List String → Bool) (dir : List String)
    (found : List (List String)) : List (List String) :=
  let found' := if hasGitignore dir then found ++ [dir ++ [gitignoreName]] else found
  if dir = parentDir dir then found'
  else walkupGitignores hasGitignore (parentDir dir) found'
termination_by dir.length
decreasing_by
  rename_i h
  simp only [parentDir, List.length_dropLast]
  have hne : dir ≠ [] := by
    intro hnil
    exact h (by simp [parentDir, hnil])
  have hpos : 0 < dir.length := List.length_pos.mpr hne
  omega

/-- The chain of directories from dir up to the filesystem root, inclusive. -/
def ancestors (dir : List String) : List (List String) :=
  if h : dir = [] then [[]]
  else dir :: ancestors dir.dropLast
termination_by dir.length
decreasing_by
  simp only [List.length_dropLast]
  have hpos : 0 < dir.length := List.length_pos.mpr h
  omega

/-- JavaScript indexOf on a list of strings: the first index holding s, or
none where JavaScript returns minus one. -/
def jsIndexOf (s : String) : List String → Option Nat
  | [] => none
  | t :: rest => if t = s then some 0 else (jsIndexOf s rest).map (· + 1)

/-- The sort key of sortRoots, extension.ts lines 349 to 352: the index of the
root path in the desired order when found (indexOf at least zero), otherwise
the length of the roots list. -/
def rootSortKey (roots : List WorkspaceRoot) (desiredOrder : List String)
    (root : WorkspaceRoot) : Nat :=
  match jsIndexOf root.rootPath desiredOrder with
  | some i => i
  | none => roots.length

/-- Insert an element into a list sorted by key, after every element of equal
key: the insertion step of a stable ascending sort. -/
def insertSorted {α : Type} (key : α → Nat) (x : α) : List α → List α
  | [] => [x]
  | y :: ys => if key x < key y then x :: y :: ys else y :: insertSorted key x ys

/-- Fold the elements left to right into an accumulator kept sorted by key. -/
def stableSortByAux {α : Type} (key : α → Nat) : List α → List α → List α
  | acc, [] => acc
  | acc, x :: xs => stableSortByAux key (insertSorted key x acc) xs

/-- A stable ascending sort by a natural-number key, modeling lodash sortBy:
elements of equal key keep their original relative order. -/
def stableSortBy {α : Type} (key : α → Nat) (l : List α) : List α :=
  stableSortByAux key [] l

/-- sortRoots from extension.ts lines 345 to 353: stable sort of the roots by
their position in the desired order, absent roots keyed by the list length. -/
def sortRoots (roots : List WorkspaceRoot) (desiredOrder : List String) :
    List WorkspaceRoot :=
  stableSortBy (rootSortKey roots desiredOrder) roots

/-- The filesystem state touched by createFileOrFolder: the set of directories
and the files with their contents, all keyed by component paths. -/
structure FileSystem where
  dirs : List (List String)
  files : List (List String × List Char)
deriving DecidableEq

/-- fs.existsSync: the path is a known directory or a known file. -/
def pathExistsB (p : List String) (fs : FileSystem) : Bool :=
  fs.dirs.contains p || fs.files.any fun e => e.1 == p

/-- mkdirp.sync: create the directory and every missing ancestor, that is every
nonempty prefix of the component path. -/
def mkdirpSync (p : List String) (fs : FileSystem) : FileSystem :=
  { fs with dirs := ((List.range p.length).map fun k => p.take (k + 1)) ++ fs.dirs }

/-- fs.appendFileSync on the files table: append to the matching file if it
exists, otherwise create it with the given data. -/
def appendEntry (p : List String) (data : List Char) :
    List (List String × List Char) → List (List String × List Char)
  | [] => [(p, data)]
  | (q, c) :: rest => if q = p then (q, c ++ data) :: rest else (q, c) :: appendEntry p data rest

/-- fs.appendFileSync lifted to the filesystem state. -/
def appendFileSync (p : List String) (data : List Char) (fs : FileSystem) : FileSystem :=
  { fs with files := appendEntry p data fs.files }

/-- An absolute path string: its components, and whether the string ends with
the path separator. -/
structure AbsPath where
  components : List String
  trailingSep : Bool
deriving DecidableEq

/-- isFolderDescriptor from extension.ts lines 35 to 37: the last character of
the path string is the path separator. -/
def isFolderDescriptor (p : AbsPath) : Bool := p.trailingSep

/-- path.dirname: drop the last component. -/
def dirnameComponents (p : AbsPath) : List String := p.components.dropLast

/-- createFileOrFolder from extension.ts lines 203 to 214: do nothing when the
path exists; otherwise mkdirp the path itself when it is a folder descriptor,
or mkdirp its directory and append an empty file when it is a file path. -/
def createFileOrFolder (p : AbsPath) (fs : FileSystem) : FileSystem :=
  if pathExistsB p.components fs then fs
  else if isFolderDescriptor p then mkdirpSync p.components fs
  else appendFileSync p.components [] (mkdirpSync (dirnameComponents p) fs)

/-- showInputBox from extension.ts lines 153 to 166: path.join of the chosen
base directory and the typed relative path. -/
def showInputBoxPath (base : DirectoryOption) (input : List String)
    (trailing : Bool) : AbsPath :=
  ⟨base.fsLocation.absolute ++ input, trailing⟩

/-- Concrete workspace root used in counterexamples and witnesses. -/
def demoRootA : WorkspaceRoot := ⟨"/a", "a", true⟩

/-- Concrete workspace root used in counterexamples and witnesses. -/
def demoRootB : WorkspaceRoot := ⟨"/b", "b", true⟩

/-- A recent-roots order longer than the root list, holding demoRootA late. -/
def demoOrder : List String := ["/x", "/y", "/z", "/a"]

/-- Concrete directory option used in witnesses. -/
def demoDir : DirectoryOption := ⟨"/", ⟨[], ["/a"]⟩⟩

/-- Editor with an empty selection, for the witness of the precheck theorem. -/
def demoEditorEmptySel : EditorState := ⟨[['a']], (0, 0), (0, 0)⟩

/-- Editor with a nonempty selection, for the witness of the precheck theorem. -/
def demoEditorWithSel : EditorState := ⟨[['a', 'b']], (0, 0), (0, 1)⟩

/-- splitLines never returns the empty list. -/
theorem splitLines_ne_nil (x : List Char) : splitLines x ≠ [] := by
  cases x with
  | nil => simp [splitLines]
  | cons c rest =>
    simp only [splitLines]
    split
    · simp
    · split <;> simp

/-- joinLines of a cons with a nonempty tail unfolds to an append. -/
theorem joinLines_cons_of_ne_nil (x : TextLine) (ls : List TextLine) (h : ls ≠ []) :
    joinLines (x :: ls) = x ++ '\n' :: joinLines ls := by
  cases ls with
  | nil => exact absurd rfl h
  | cons y ys => rfl

/-- Joining the split of a text gives the text back. -/
theorem joinLines_splitLines (x : List Char) : joinLines (splitLines x) = x := by
  induction x with
  | nil => rfl
  | cons c rest ih =>
    by_cases h : c = '\n'
    · simp only [splitLines]
      rw [if_pos h, joinLines_cons_of_ne_nil _ _ (splitLines_ne_nil rest), ih,
        List.nil_append, h]
    · cases hsp : splitLines rest with
      | nil => exact absurd hsp (splitLines_ne_nil rest)
      | cons hd tl =>
        simp only [splitLines, if_neg h, hsp]
        cases tl with
        | nil =>
          have hrest : joinLines [hd] = rest := by rw [← hsp]; exact ih
          simp only [joinLines] at hrest ⊢
          rw [hrest]
        | cons h2 t2 =>
          rw [joinLines_cons_of_ne_nil _ _ (by simp)]
          have hrest : joinLines (hd :: h2 :: t2) = rest := by rw [← hsp]; exact ih
          rw [joinLines_cons_of_ne_nil _ _ (by simp)] at hrest
          simp only [List.cons_append]
          rw [hrest]

/-- Taking the length of the first list plus n from an append. -/
theorem take_append_len {α : Type} (l₁ l₂ : List α) (n : Nat) :
    (l₁ ++ l₂).take (l₁.length + n) = l₁ ++ l₂.take n := by
  induction l₁ with
  | nil => simp
  | cons x xs ih => simp [Nat.succ_add, ih]

/-- Taking at most the length of the first list from an append. -/
theorem take_append_le {α : Type} (l₁ l₂ : List α) (n : Nat) (h : n ≤ l₁.length) :
    (l₁ ++ l₂).take n = l₁.take n := by
  induction l₁ generalizing n with
  | nil =>
    have : n = 0 := Nat.le_zero.mp h
    simp [this]
  | cons x xs ih =>
    cases n with
    | zero => simp
    | succ m =>
      simp only [List.cons_append, List.take_succ_cons]
      rw [ih m (Nat.le_of_succ_le_succ h)]

/-- Dropping the length of the first list plus n from an append. -/
theorem drop_append_len {α : Type} (l₁ l₂ : List α) (n : Nat) :
    (l₁ ++ l₂).drop (l₁.length + n) = l₂.drop n := by
  induction l₁ with
  | nil => simp
  | cons x xs ih => simp [Nat.succ_add, ih]

/-- Dropping at most the length of the first list from an append. -/
theorem drop_append_le {α : Type} (l₁ l₂ : List α) (n : Nat) (h : n ≤ l₁.length) :
    (l₁ ++ l₂).drop n = l₁.drop n ++ l₂ := by
  induction l₁ generalizing n with
  | nil =>
    have : n = 0 := Nat.le_zero.mp h
    simp [this]
  | cons x xs ih =>
    cases n with
    | zero => simp
    | succ m =>
      simp only [List.cons_append, List.drop_succ_cons]
      rw [ih m (Nat.le_of_succ_le_succ h)]

/-- joinLines distributes over an append of nonempty line lists. -/
theorem joinLines_append (X Y : List TextLine) (hX : X ≠ []) (hY : Y ≠ []) :
    joinLines (X ++ Y) = joinLines X ++ '\n' :: joinLines Y := by
  induction X with
  | nil => exact absurd rfl hX
  | cons x xs ih =>
    cases xs with
    | nil =>
      rw [List.cons_append, List.nil_append, joinLines_cons_of_ne_nil _ _ hY]
      rfl
    | cons x2 xs2 =>
      rw [List.cons_append, joinLines_cons_of_ne_nil _ _ (by simp),
        joinLines_cons_of_ne_nil x (x2 :: xs2) (by simp), ih (by simp)]
      simp [List.append_assoc]

/-- Splicing a line built from two halves, base case of an empty head list. -/
theorem joinLines_splice_nil (Y : List TextLine) (p q : TextLine) :
    joinLines ((p ++ q) :: Y) = p ++ joinLines (q :: Y) := by
  cases Y with
  | nil => rfl
  | cons y ys =>
    rw [joinLines_cons_of_ne_nil (p ++ q) (y :: ys) (by simp),
      joinLines_cons_of_ne_nil q (y :: ys) (by simp)]
    simp [List.append_assoc]

/-- Splicing a line built from two halves splits the joined text in two. -/
theorem joinLines_splice (X Y : List TextLine) (p q : TextLine) :
    joinLines (X ++ (p ++ q) :: Y) = joinLines (X ++ [p]) ++ joinLines (q :: Y) := by
  induction X with
  | nil =>
    rw [List.nil_append, List.nil_append, joinLines_splice_nil]
    rfl
  | cons x xs ih =>
    rw [List.cons_append, List.cons_append,
      joinLines_cons_of_ne_nil x (xs ++ (p ++ q) :: Y) (by simp),
      joinLines_cons_of_ne_nil x (xs ++ [p]) (by simp), ih]
    simp [List.append_assoc]


theorem take_joinLines (l : Nat) : ∀ (d : TextDoc) (c : Nat), l < d.length →
    c ≤ (d.getD l []).length →
    (joinLines d).take (lineStart d l + c) = joinLines (d.take l ++ [(d.getD l []).take c]) := by
  induction l with
  | zero =>
    intro d c hl hc
    cases d with
    | nil => simp at hl
    | cons x xs =>
      simp only [List.getD_cons_zero] at hc
      show (joinLines (x :: xs)).take (0 + c) = joinLines [x.take c]
      rw [Nat.zero_add]
      cases xs with
      | nil => rfl
      | cons y ys =>
        rw [joinLines_cons_of_ne_nil x (y :: ys) (by simp), take_append_le _ _ c hc]
        rfl
  | succ n ih =>
    intro d c hl hc
    cases d with
    | nil => simp at hl
    | cons x xs =>
      have hxs : n < xs.length := by simpa using hl
      have hc2 : c ≤ (xs.getD n []).length := hc
      cases xs with
      | nil => simp at hxs
      | cons y ys =>
        show (joinLines (x :: y :: ys)).take (x.length + 1 + lineStart (y :: ys) n + c) =
          joinLines (x :: ((y :: ys).take n ++ [((y :: ys).getD n []).take c]))
        rw [joinLines_cons_of_ne_nil x (y :: ys) (by simp),
          joinLines_cons_of_ne_nil x ((y :: ys).take n ++ [((y :: ys).getD n []).take c])
            (by simp),
          show x.length + 1 + lineStart (y :: ys) n + c =
            x.length + (lineStart (y :: ys) n + c + 1) from by omega,
          take_append_len,
          Nat.add_comm (lineStart (y :: ys) n + c) 1,
          show (1 + (lineStart (y :: ys) n + c)) = (lineStart (y :: ys) n + c) + 1 from by omega,
          List.take_succ_cons,
          ih (y :: ys) c hxs hc2]

theorem drop_joinLines (l : Nat) : ∀ (d : TextDoc) (c : Nat), l < d.length →
    c ≤ (d.getD l []).length →
    (joinLines d).drop (lineStart d l + c) =
      joinLines ((d.getD l []).drop c :: d.drop (l + 1)) := by
  induction l with
  | zero =>
    intro d c hl hc
    cases d with
    | nil => simp at hl
    | cons x xs =>
      simp only [List.getD_cons_zero] at hc
      show (joinLines (x :: xs)).drop (0 + c) = joinLines (x.drop c :: xs)
      rw [Nat.zero_add]
      cases xs with
      | nil => rfl
      | cons y ys =>
        rw [joinLines_cons_of_ne_nil x (y :: ys) (by simp),
          joinLines_cons_of_ne_nil (x.drop c) (y :: ys) (by simp),
          drop_append_le _ _ c hc]
  | succ n ih =>
    intro d c hl hc
    cases d with
    | nil => simp at hl
    | cons x xs =>
      have hxs : n < xs.length := by simpa using hl
      have hc2 : c ≤ (xs.getD n []).length := hc
      cases xs with
      | nil => simp at hxs
      | cons y ys =>
        show (joinLines (x :: y :: ys)).drop (x.length + 1 + lineStart (y :: ys) n + c) =
          joinLines (((y :: ys).getD n []).drop c :: (y :: ys).drop (n + 1))
        rw [joinLines_cons_of_ne_nil x (y :: ys) (by simp),
          show x.length + 1 + lineStart (y :: ys) n + c =
            x.length + (lineStart (y :: ys) n + c + 1) from by omega,
          drop_append_len,
          show lineStart (y :: ys) n + c + 1 = (lineStart (y :: ys) n + c) + 1 from rfl,
          List.drop_succ_cons,
          ih (y :: ys) c hxs hc2]

theorem joinLines_concat_append (A : List TextLine) (x : TextLine) (t : List Char) :
    joinLines (A ++ splitLines (x ++ t)) = joinLines (A ++ [x]) ++ t := by
  cases A with
  | nil =>
    rw [List.nil_append, List.nil_append, joinLines_splitLines]
    rfl
  | cons a as =>
    rw [joinLines_append (a :: as) (splitLines (x ++ t)) (by simp) (splitLines_ne_nil _),
      joinLines_append (a :: as) [x] (by simp) (by simp), joinLines_splitLines]
    simp [joinLines, List.append_assoc]

theorem take_pred_append_getD : ∀ (d : TextDoc), d ≠ [] →
    d.take (d.length - 1) ++ [d.getD (d.length - 1) []] = d := by
  intro d
  induction d with
  | nil => intro h; exact absurd rfl h
  | cons x xs ih =>
    intro _
    cases xs with
    | nil => rfl
    | cons y ys =>
      have h1 : (x :: y :: ys).length - 1 = (y :: ys).length - 1 + 1 := by simp
      rw [h1, List.take_succ_cons, List.getD_cons_succ]
      have := ih (by simp)
      rw [List.cons_append]
      rw [this]

theorem insertAt_end_eq (d : TextDoc) (t : List Char) (hd : d ≠ []) :
    insertAt d (d.length - 1) ((d.getD (d.length - 1) []).length) t =
      d.take (d.length - 1) ++ splitLines ((d.getD (d.length - 1) []) ++ t) := by
  unfold insertAt
  rw [List.take_length, List.drop_length,
    show d.length - 1 + 1 = d.length from Nat.succ_pred_eq_of_pos (List.length_pos.mpr hd),
    List.drop_length]
  simp

theorem joinLines_insertAt_end (d : TextDoc) (t : List Char) (hd : d ≠ []) :
    joinLines (insertAt d (d.length - 1) ((d.getD (d.length - 1) []).length) t) =
      joinLines d ++ t := by
  rw [insertAt_end_eq d t hd, joinLines_concat_append, take_pred_append_getD d hd]

theorem joinLines_deleteRange (d : TextDoc) (s e : TextPos)
    (hse : s.1 ≤ e.1) (he : e.1 < d.length)
    (hs2 : s.2 ≤ (d.getD s.1 []).length) (he2 : e.2 ≤ (d.getD e.1 []).length) :
    joinLines (deleteRange d s e) =
      (joinLines d).take (docOffset d s) ++ (joinLines d).drop (docOffset d e) := by
  unfold deleteRange docOffset
  rw [joinLines_splice (d.take s.1) (d.drop (e.1 + 1))
      ((d.getD s.1 []).take s.2) ((d.getD e.1 []).drop e.2),
    ← take_joinLines s.1 d s.2 (lt_of_le_of_lt hse he) hs2,
    ← drop_joinLines e.1 d e.2 he he2]

/-- C1: when the user confirms an existing file as the target, the command
inserts the selected text at the end of the target document preceded by a
newline character, and deletes the original selection from the source
editor: the target text afterwards is the old target text, a newline, and
the selected text; the source text afterwards is the text before the
selection followed by the text after it. -/
theorem c1_move_appends_and_deletes (src tgt : TextDoc) (s e : TextPos)
    (hse : s.1 ≤ e.1) (he : e.1 < src.length)
    (hs2 : s.2 ≤ (src.getD s.1 []).length) (he2 : e.2 ≤ (src.getD e.1 []).length)
    (htgt : tgt ≠ []) :
    joinLines (moveSelectionToExistingFile src s e tgt).2 =
      joinLines tgt ++ '\n' :: getTextRange src s e ∧
    joinLines (moveSelectionToExistingFile src s e tgt).1 =
      (joinLines src).take (docOffset src s) ++ (joinLines src).drop (docOffset src e) := by
  constructor
  · show joinLines (insertAt tgt (tgt.length - 1) ((tgt.getD (tgt.length - 1) []).length)
      ('\n' :: getTextRange src s e)) = joinLines tgt ++ '\n' :: getTextRange src s e
    exact joinLines_insertAt_end tgt _ htgt
  · exact joinLines_deleteRange src s e hse he hs2 he2

/-- Witness for C1 at a concrete two-line source, selection from line 0
column 1 to line 1 column 1, and a one-line target. -/
theorem c1_move_witness :
    joinLines (moveSelectionToExistingFile [['a', 'b'], ['c', 'd']] (0, 1) (1, 1) [['x']]).2 =
      joinLines [['x']] ++ '\n' :: getTextRange [['a', 'b'], ['c', 'd']] (0, 1) (1, 1) ∧
    joinLines (moveSelectionToExistingFile [['a', 'b'], ['c', 'd']] (0, 1) (1, 1) [['x']]).1 =
      (joinLines [['a', 'b'], ['c', 'd']]).take (docOffset [['a', 'b'], ['c', 'd']] (0, 1)) ++
        (joinLines [['a', 'b'], ['c', 'd']]).drop (docOffset [['a', 'b'], ['c', 'd']] (1, 1)) :=
  c1_move_appends_and_deletes [['a', 'b'], ['c', 'd']] [['x']] (0, 1) (1, 1)
    (by decide) (by decide) (by decide) (by decide) (by decide)

/-- C2 counterexample: the no-active-editor precondition failure surfaces no
message at all; the command returns silently, contradicting the claim that
each of the three failures surfaces a one-line message. -/
theorem c2_counterexample :
    (commandPrecheck none []).outcome = CommandOutcome.abortedNoEditor ∧
    (commandPrecheck none []).errorMessages = [] := by
  constructor <;> rfl

/-- C2 amended: the empty-selection and no-workspace failures each surface
exactly one one-line message and abort with the editor state unchanged; the
no-active-editor failure also aborts without any edit, but surfaces no
message. -/
theorem c2_precheck_amended (roots : List WorkspaceRoot) :
    (commandPrecheck none roots =
      ⟨CommandOutcome.abortedNoEditor, [], none⟩) ∧
    (∀ ed : EditorState, (getSelectionText ed).length = 0 →
      commandPrecheck (some ed) roots =
        ⟨CommandOutcome.abortedEmptySelection, [ErrMsg.noTextSelected], some ed⟩) ∧
    (∀ ed : EditorState, (getSelectionText ed).length ≠ 0 → roots = [] →
      commandPrecheck (some ed) roots =
        ⟨CommandOutcome.abortedNoWorkspace, [ErrMsg.noFolderOpened], some ed⟩) := by
  refine ⟨rfl, ?_, ?_⟩
  · intro ed hed
    simp [commandPrecheck, hed]
  · intro ed hed hroots
    subst hroots
    simp [commandPrecheck, hed]

/-- Witness for C2 at concrete editors: one with an empty selection, one with
a nonempty selection and no workspace root. -/
theorem c2_precheck_amended_witness :
    commandPrecheck (some demoEditorEmptySel) [] =
      ⟨CommandOutcome.abortedEmptySelection, [ErrMsg.noTextSelected], some demoEditorEmptySel⟩ ∧
    commandPrecheck (some demoEditorWithSel) [] =
      ⟨CommandOutcome.abortedNoWorkspace, [ErrMsg.noFolderOpened], some demoEditorWithSel⟩ :=
  ⟨(c2_precheck_amended []).2.1 demoEditorEmptySel (by decide),
    (c2_precheck_amended []).2.2 demoEditorWithSel (by decide) rfl⟩

/-- A gitignore pattern line contributes both its flipped globs to the
conversion result. -/
theorem mem_gitignoreToGlob_of_pat (lines : List GitignoreLine) (b : Bool)
    (segs : List GlobSeg) (hmem : GitignoreLine.pat b segs ∈ lines) :
    Glob.mk (!b) segs ∈ gitignoreToGlob lines ∧
    Glob.mk (!b) (segs ++ [GlobSeg.dstar]) ∈ gitignoreToGlob lines := by
  induction lines with
  | nil => cases hmem
  | cons l rest ih =>
    rcases List.mem_cons.mp hmem with heq | htail
    · rw [← heq]
      constructor <;> simp [gitignoreToGlob, globPair]
    · have hrec := ih htail
      cases l with
      | pat b2 s2 =>
        exact ⟨List.mem_append_right _ hrec.1, List.mem_append_right _ hrec.2⟩
      | comment => exact hrec
      | blank => exact hrec

/-- A glob produced from one walked-up gitignore file is in the combined
gitignore glob list. -/
theorem mem_gitignoreGlobs (files : List (List GitignoreLine)) (f : List GitignoreLine)
    (g : Glob) (hf : f ∈ files) (hg : g ∈ gitignoreToGlob f) :
    g ∈ gitignoreGlobs files := by
  induction files with
  | nil => cases hf
  | cons f0 rest ih =>
    rcases List.mem_cons.mp hf with heq | htail
    · rw [heq] at hg
      exact List.mem_append_left _ hg
    · exact List.mem_append_right _ (ih htail)

/-- Inverting a member of a glob list puts its non-negated form in the map. -/
theorem invertGlob_mem (globs : List Glob) (b : Bool) (segs : List GlobSeg)
    (h : Glob.mk b segs ∈ globs) :
    Glob.mk false segs ∈ globs.map invertGlob :=
  List.mem_map.mpr ⟨_, h, rfl⟩

/-- Any pattern line of any walked-up gitignore file lands, inverted, in the
ignore list of directoriesSync, with and without the trailing wildcard. -/
theorem ignore_mem_of_gitignore (gitFiles : List (List GitignoreLine))
    (config : List (List GlobSeg × Bool)) (f : List GitignoreLine) (b : Bool)
    (segs : List GlobSeg) (hf : f ∈ gitFiles) (hline : GitignoreLine.pat b segs ∈ f) :
    Glob.mk false segs ∈ ignoreGlobsFor gitFiles config ∧
    Glob.mk false (segs ++ [GlobSeg.dstar]) ∈ ignoreGlobsFor gitFiles config := by
  have h2 := mem_gitignoreToGlob_of_pat f b segs hline
  have h3 := mem_gitignoreGlobs gitFiles f _ hf h2.1
  have h4 := mem_gitignoreGlobs gitFiles f _ hf h2.2
  exact ⟨invertGlob_mem _ _ _ (List.mem_append_left _ h3),
    invertGlob_mem _ _ _ (List.mem_append_left _ h4)⟩

/-- Any configured exclude key set to true lands, inverted, in the ignore
list of directoriesSync, with and without the trailing wildcard. -/
theorem ignore_mem_of_config (gitFiles : List (List GitignoreLine))
    (config : List (List GlobSeg × Bool)) (segs : List GlobSeg)
    (hk : (segs, true) ∈ config) :
    Glob.mk false segs ∈ ignoreGlobsFor gitFiles config ∧
    Glob.mk false (segs ++ [GlobSeg.dstar]) ∈ ignoreGlobsFor gitFiles config := by
  have hline : GitignoreLine.pat false segs ∈
      ((config.filter fun kv => kv.2).map fun kv => GitignoreLine.pat false kv.1) :=
    List.mem_map.mpr ⟨(segs, true), List.mem_filter.mpr ⟨hk, rfl⟩, rfl⟩
  have h2 := mem_gitignoreToGlob_of_pat _ false segs hline
  exact ⟨invertGlob_mem _ _ _ (List.mem_append_right _ h2.1),
    invertGlob_mem _ _ _ (List.mem_append_right _ h2.2)⟩

/-- No glob of the ignore list matches a candidate of directoriesSync. -/
theorem directoriesSync_not_matched (root : List String) (entries : List FSEntry)
    (gitFiles : List (List GitignoreLine)) (config : List (List GlobSeg × Bool))
    (loc : FSLocation) (hloc : loc ∈ directoriesSync root entries gitFiles config)
    (g : Glob) (hg : g ∈ ignoreGlobsFor gitFiles config) :
    matchGlob g loc.relative = false := by
  unfold directoriesSync at hloc
  rcases List.mem_map.mp hloc with ⟨e, he, heq⟩
  have he2 := (List.mem_filter.mp he).1
  have he3 := (List.mem_filter.mp he2).2
  have hany : ((ignoreGlobsFor gitFiles config).any fun g2 => matchGlob g2 e.path) = false := by
    simpa using he3
  have hrel : loc.relative = e.path := by rw [← heq]
  rw [hrel]
  cases hmg : matchGlob g e.path with
  | false => rfl
  | true =>
    exfalso
    have : ((ignoreGlobsFor gitFiles config).any fun g2 => matchGlob g2 e.path) = true :=
      List.any_eq_true.mpr ⟨g, hg, hmg⟩
    rw [hany] at this
    cases this

/-- C3: no directory matched by an applicable ignore glob, from a walked-up
gitignore file (a non-negated pattern line, with or without the trailing
wildcard the conversion adds) or from a configured exclude set to true,
appears in the candidate list returned by directoriesSync. -/
theorem c3_ignored_never_listed (root : List String) (entries : List FSEntry)
    (gitFiles : List (List GitignoreLine)) (config : List (List GlobSeg × Bool))
    (loc : FSLocation) (hloc : loc ∈ directoriesSync root entries gitFiles config) :
    (∀ f ∈ gitFiles, ∀ segs : List GlobSeg, GitignoreLine.pat false segs ∈ f →
      matchSegs segs loc.relative = false ∧
      matchSegs (segs ++ [GlobSeg.dstar]) loc.relative = false) ∧
    (∀ segs : List GlobSeg, (segs, true) ∈ config →
      matchSegs segs loc.relative = false ∧
      matchSegs (segs ++ [GlobSeg.dstar]) loc.relative = false) := by
  constructor
  · intro f hf segs hline
    have hm := ignore_mem_of_gitignore gitFiles config f false segs hf hline
    exact ⟨directoriesSync_not_matched root entries gitFiles config loc hloc _ hm.1,
      directoriesSync_not_matched root entries gitFiles config loc hloc _ hm.2⟩
  · intro segs hk
    have hm := ignore_mem_of_config gitFiles config segs hk
    exact ⟨directoriesSync_not_matched root entries gitFiles config loc hloc _ hm.1,
      directoriesSync_not_matched root entries gitFiles config loc hloc _ hm.2⟩

/-- Witness for C3: with a gitignore ignoring node_modules and a configured
exclude for dist, the surviving candidate src matches neither ignore glob. -/
theorem c3_witness :
    matchSegs [GlobSeg.lit "node_modules"] ["src"] = false ∧
    matchSegs ([GlobSeg.lit "node_modules"] ++ [GlobSeg.dstar]) ["src"] = false :=
  (c3_ignored_never_listed ["w"]
      [⟨["src"], true⟩, ⟨["node_modules"], true⟩]
      [[GitignoreLine.pat false [GlobSeg.lit "node_modules"]]]
      [([GlobSeg.lit "dist"], true)]
      ⟨["src"], ["w", "src"]⟩ (by decide)).1
    [GitignoreLine.pat false [GlobSeg.lit "node_modules"]] (by decide)
    [GlobSeg.lit "node_modules"] (by decide)

/-- C4 counterexample: a directory named keep matches the negated gitignore
pattern for keep, yet the candidate list is empty: because invertGlob only
strips a leading negation mark and the conversion has already flipped the
negated line into a plain glob, the entry is ignored instead of surfaced. -/
theorem c4_counterexample :
    matchSegs [GlobSeg.lit "keep"] ["keep"] = true ∧
    directoriesSync ["w"] [⟨["keep"], true⟩]
      [[GitignoreLine.pat true [GlobSeg.lit "keep"]]] [] = [] := by
  decide

/-- C4 amended: negated gitignore patterns are flipped to plain globs by the
conversion and invertGlob leaves them unchanged, so they are passed as ignore
globs like ordinary patterns: every entry matching a negated pattern is
excluded from the candidate list rather than surfaced. -/
theorem c4_negated_excluded (root : List String) (entries : List FSEntry)
    (gitFiles : List (List GitignoreLine)) (config : List (List GlobSeg × Bool))
    (loc : FSLocation) (hloc : loc ∈ directoriesSync root entries gitFiles config) :
    ∀ f ∈ gitFiles, ∀ segs : List GlobSeg, GitignoreLine.pat true segs ∈ f →
      matchSegs segs loc.relative = false ∧
      matchSegs (segs ++ [GlobSeg.dstar]) loc.relative = false := by
  intro f hf segs hline
  have hm := ignore_mem_of_gitignore gitFiles config f true segs hf hline
  exact ⟨directoriesSync_not_matched root entries gitFiles config loc hloc _ hm.1,
    directoriesSync_not_matched root entries gitFiles config loc hloc _ hm.2⟩

/-- Witness for C4 amended: with a negated gitignore line for keep, the
surviving candidate other does not match the keep pattern. -/
theorem c4_negated_excluded_witness :
    matchSegs [GlobSeg.lit "keep"] ["other"] = false ∧
    matchSegs ([GlobSeg.lit "keep"] ++ [GlobSeg.dstar]) ["other"] = false :=
  c4_negated_excluded ["w"] [⟨["keep"], true⟩, ⟨["other"], true⟩]
    [[GitignoreLine.pat true [GlobSeg.lit "keep"]]] []
    ⟨["other"], ["w", "other"]⟩ (by decide)
    [GitignoreLine.pat true [GlobSeg.lit "keep"]] (by decide)
    [GlobSeg.lit "keep"] (by decide)

/-- Membership in an insertion step: the inserted element or an old one. -/
theorem mem_insertSorted {α : Type} (key : α → Nat) (x : α) :
    ∀ (l : List α) (a : α), a ∈ insertSorted key x l ↔ a = x ∨ a ∈ l := by
  intro l
  induction l with
  | nil => intro a; simp [insertSorted]
  | cons y ys ih =>
    intro a
    simp only [insertSorted]
    by_cases hlt : key x < key y
    · rw [if_pos hlt]
      simp [List.mem_cons]
    · rw [if_neg hlt]
      simp only [List.mem_cons, ih]
      tauto

/-- Inserting into a key-sorted list keeps it key-sorted. -/
theorem pairwise_insertSorted {α : Type} (key : α → Nat) (x : α) :
    ∀ l : List α, List.Pairwise (fun a b => key a ≤ key b) l →
      List.Pairwise (fun a b => key a ≤ key b) (insertSorted key x l) := by
  intro l
  induction l with
  | nil => intro _; simp [insertSorted]
  | cons y ys ih =>
    intro hp
    rcases List.pairwise_cons.mp hp with ⟨hy, hys⟩
    simp only [insertSorted]
    by_cases hlt : key x < key y
    · rw [if_pos hlt]
      refine List.pairwise_cons.mpr ⟨?_, hp⟩
      intro b hb
      rcases List.mem_cons.mp hb with rfl | hbys
      · exact Nat.le_of_lt hlt
      · exact Nat.le_trans (Nat.le_of_lt hlt) (hy b hbys)
    · rw [if_neg hlt]
      refine List.pairwise_cons.mpr ⟨?_, ih hys⟩
      intro b hb
      rcases (mem_insertSorted key x ys b).mp hb with rfl | hbys
      · exact Nat.le_of_not_lt hlt
      · exact hy b hbys

/-- Inserting is a permutation of putting the element in front. -/
theorem perm_insertSorted {α : Type} (key : α → Nat) (x : α) :
    ∀ l : List α, List.Perm (insertSorted key x l) (x :: l) := by
  intro l
  induction l with
  | nil => simp [insertSorted]
  | cons y ys ih =>
    simp only [insertSorted]
    by_cases hlt : key x < key y
    · rw [if_pos hlt]
    · rw [if_neg hlt]
      exact List.Perm.trans (List.Perm.cons y ih) (List.Perm.swap x y ys)

/-- The accumulator-based sort keeps the accumulator key-sorted. -/
theorem pairwise_stableSortByAux {α : Type} (key : α → Nat) :
    ∀ (l acc : List α), List.Pairwise (fun a b => key a ≤ key b) acc →
      List.Pairwise (fun a b => key a ≤ key b) (stableSortByAux key acc l) := by
  intro l
  induction l with
  | nil => intro acc h; exact h
  | cons x xs ih =>
    intro acc h
    exact ih (insertSorted key x acc) (pairwise_insertSorted key x acc h)

/-- The stable sort output is key-sorted. -/
theorem pairwise_stableSortBy {α : Type} (key : α → Nat) (l : List α) :
    List.Pairwise (fun a b => key a ≤ key b) (stableSortBy key l) :=
  pairwise_stableSortByAux key l [] (by simp)

/-- The accumulator-based sort permutes the accumulator and the input. -/
theorem perm_stableSortByAux {α : Type} (key : α → Nat) :
    ∀ (l acc : List α), List.Perm (stableSortByAux key acc l) (acc ++ l) := by
  intro l
  induction l with
  | nil => intro acc; simp [stableSortByAux]
  | cons x xs ih =>
    intro acc
    exact List.Perm.trans (ih (insertSorted key x acc))
      (List.Perm.trans (List.Perm.append_right xs (perm_insertSorted key x acc))
        List.perm_middle.symm)

/-- The stable sort output is a permutation of the input. -/
theorem perm_stableSortBy {α : Type} (key : α → Nat) (l : List α) :
    List.Perm (stableSortBy key l) l := by
  have h := perm_stableSortByAux key l []
  simpa [stableSortBy] using h

/-- Filtering one key value through an insertion step: the inserted element
lands after every old element of its key, by sortedness of the list. -/
theorem filter_insertSorted {α : Type} (key : α → Nat) (x : α) (k : Nat) :
    ∀ l : List α, List.Pairwise (fun a b => key a ≤ key b) l →
      (insertSorted key x l).filter (fun y => key y == k) =
        if key x == k then l.filter (fun y => key y == k) ++ [x]
        else l.filter (fun y => key y == k) := by
  intro l
  induction l with
  | nil =>
    intro _
    by_cases hx : (key x == k) = true
    · rw [if_pos hx]
      simp [insertSorted, List.filter_cons, hx]
    · rw [if_neg hx]
      simp [insertSorted, List.filter_cons, hx]
  | cons y ys ih =>
    intro hp
    rcases List.pairwise_cons.mp hp with ⟨hy, hys⟩
    simp only [insertSorted]
    by_cases hlt : key x < key y
    · rw [if_pos hlt]
      by_cases hx : (key x == k) = true
      · rw [if_pos hx]
        have hk : key x = k := by simpa using hx
        have hnil : (y :: ys).filter (fun z => key z == k) = [] := by
          apply List.filter_eq_nil_iff.mpr
          intro z hz
          have hzge : key y ≤ key z := by
            rcases List.mem_cons.mp hz with rfl | hzys
            · exact Nat.le_refl _
            · exact hy z hzys
          have hklt : k < key z := Nat.lt_of_lt_of_le (hk ▸ hlt) hzge
          simp only [beq_iff_eq]
          omega
        rw [List.filter_cons_of_pos (p := fun z => key z == k) hx, hnil]
        rfl
      · rw [if_neg hx, List.filter_cons_of_neg (p := fun z => key z == k) (by simpa using hx)]
    · rw [if_neg hlt]
      by_cases hy2 : (key y == k) = true
      · rw [List.filter_cons_of_pos (p := fun z => key z == k)
            (l := insertSorted key x ys) hy2,
          List.filter_cons_of_pos (p := fun z => key z == k) (l := ys) hy2, ih hys]
        by_cases hx : (key x == k) = true
        · rw [if_pos hx, if_pos hx]
          rfl
        · rw [if_neg hx, if_neg hx]
      · rw [List.filter_cons_of_neg (p := fun z => key z == k)
            (l := insertSorted key x ys) (by simpa using hy2),
          List.filter_cons_of_neg (p := fun z => key z == k) (l := ys)
            (by simpa using hy2), ih hys]

/-- Filtering one key value through the accumulator-based sort. -/
theorem filter_stableSortByAux {α : Type} (key : α → Nat) (k : Nat) :
    ∀ (l acc : List α), List.Pairwise (fun a b => key a ≤ key b) acc →
      (stableSortByAux key acc l).filter (fun y => key y == k) =
        acc.filter (fun y => key y == k) ++ l.filter (fun y => key y == k) := by
  intro l
  induction l with
  | nil => intro acc _; simp [stableSortByAux]
  | cons x xs ih =>
    intro acc hacc
    show (stableSortByAux key (insertSorted key x acc) xs).filter _ = _
    rw [ih (insertSorted key x acc) (pairwise_insertSorted key x acc hacc),
      filter_insertSorted key x k acc hacc]
    by_cases hx : (key x == k) = true
    · rw [if_pos hx, List.filter_cons_of_pos (p := fun z => key z == k) hx]
      simp [List.append_assoc]
    · rw [if_neg hx, List.filter_cons_of_neg (p := fun z => key z == k) (by simpa using hx)]

/-- Stability of the sort: elements of any one key value keep their original
relative order (their filtered subsequence is unchanged). -/
theorem filter_stableSortBy {α : Type} (key : α → Nat) (k : Nat) (l : List α) :
    (stableSortBy key l).filter (fun y => key y == k) =
      l.filter (fun y => key y == k) := by
  have h := filter_stableSortByAux key k l [] (by simp)
  simpa [stableSortBy] using h

/-- C5 counterexample: with two roots and an order list holding only the
first root at position three, the key of the present root (three) exceeds the
key of the absent root (the roots length, two), so the absent root sorts
before the present one, refuting the claim that absent roots sort last. -/
theorem c5_counterexample :
    sortRoots [demoRootA, demoRootB] demoOrder = [demoRootB, demoRootA] ∧
    jsIndexOf demoRootA.rootPath demoOrder = some 3 ∧
    jsIndexOf demoRootB.rootPath demoOrder = none := by
  decide

/-- C5 amended: sortRoots is a stable ascending sort of the roots keyed by
position in the order list, with absent roots keyed by the roots length; in
particular, when every present root sits at a position below the number of
roots, every absent root sorts after every present root. -/
theorem c5_sortRoots_amended (roots : List WorkspaceRoot) (order : List String) :
    List.Perm (sortRoots roots order) roots ∧
    List.Pairwise (fun a b => rootSortKey roots order a ≤ rootSortKey roots order b)
      (sortRoots roots order) ∧
    (∀ k : Nat, (sortRoots roots order).filter (fun r => rootSortKey roots order r == k) =
      roots.filter (fun r => rootSortKey roots order r == k)) ∧
    ((∀ r ∈ roots, (jsIndexOf r.rootPath order).isSome = true →
        (jsIndexOf r.rootPath order).getD 0 < roots.length) →
      List.Pairwise (fun a b => (jsIndexOf b.rootPath order).isSome = true →
        (jsIndexOf a.rootPath order).isSome = true) (sortRoots roots order)) := by
  have hperm : List.Perm (sortRoots roots order) roots :=
    perm_stableSortBy (rootSortKey roots order) roots
  have hpw : List.Pairwise (fun a b => rootSortKey roots order a ≤ rootSortKey roots order b)
      (sortRoots roots order) :=
    pairwise_stableSortBy (rootSortKey roots order) roots
  refine ⟨hperm, hpw, ?_, ?_⟩
  · intro k
    exact filter_stableSortBy (rootSortKey roots order) k roots
  · intro hbound
    refine List.Pairwise.imp_of_mem ?_ hpw
    intro a b ha hb hle hbsome
    cases hja : jsIndexOf a.rootPath order with
    | some i => rfl
    | none =>
      exfalso
      have hka : rootSortKey roots order a = roots.length := by
        simp [rootSortKey, hja]
      cases hjb : jsIndexOf b.rootPath order with
      | none => rw [hjb] at hbsome; cases hbsome
      | some i =>
        have hkb : rootSortKey roots order b = i := by
          simp [rootSortKey, hjb]
        have hbmem : b ∈ roots := hperm.mem_iff.mp hb
        have hlt : i < roots.length := by
          have := hbound b hbmem
          rw [hjb] at this
          simpa using this rfl
        rw [hka, hkb] at hle
        omega

/-- Witness for C5 amended: two roots, one present at position zero in the
order list, hypothesis discharged by computation. -/
theorem c5_sortRoots_amended_witness :
    List.Pairwise (fun a b => (jsIndexOf b.rootPath ["/b"]).isSome = true →
      (jsIndexOf a.rootPath ["/b"]).isSome = true)
      (sortRoots [demoRootA, demoRootB] ["/b"]) :=
  (c5_sortRoots_amended [demoRootA, demoRootB] ["/b"]).2.2.2 (by decide)

/-- Erasing one occurrence drops the count by one. -/
theorem countOcc_jsListErase (s : String) :
    ∀ l : List String, countOcc s (jsListErase s l) = countOcc s l - 1 := by
  intro l
  induction l with
  | nil => rfl
  | cons t rest ih =>
    by_cases h : t = s
    · simp only [jsListErase, countOcc, if_pos h]
      omega
    · simp only [jsListErase, countOcc, if_neg h]
      rw [ih]
      omega

/-- In a key-sorted list holding an element of key zero, the head has key
zero. -/
theorem head_key_zero {α : Type} (key : α → Nat) (out : List α)
    (hpw : List.Pairwise (fun a b => key a ≤ key b) out)
    (x : α) (hx : x ∈ out) (hkx : key x = 0) :
    ∃ h, out.head? = some h ∧ key h = 0 := by
  cases out with
  | nil => cases hx
  | cons h0 t =>
    refine ⟨h0, rfl, ?_⟩
    rcases List.mem_cons.mp hx with rfl | hxt
    · exact hkx
    · have hle := (List.pairwise_cons.mp hpw).1 x hxt
      omega

/-- C6: after a confirmed selection, cacheSelection puts the selected root
path at the front of recentRoots, with exactly one occurrence when it
occurred at most once before, and on the next invocation sortRoots puts a
root bearing that path first. -/
theorem c6_cacheSelection_recent_first (c : CacheState) (dir : DirectoryOption)
    (root : WorkspaceRoot)
    (hcount : countOcc root.rootPath (recentRootsList c) ≤ 1) :
    (recentRootsList (cacheSelection c dir root)).head? = some root.rootPath ∧
    countOcc root.rootPath (recentRootsList (cacheSelection c dir root)) = 1 ∧
    ∀ roots : List WorkspaceRoot, root ∈ roots →
      ∃ r, (sortRoots roots (recentRootsList (cacheSelection c dir root))).head? = some r ∧
        r.rootPath = root.rootPath := by
  have hlist : recentRootsList (cacheSelection c dir root) =
      root.rootPath :: jsListErase root.rootPath (recentRootsList c) := rfl
  refine ⟨rfl, ?_, ?_⟩
  · rw [hlist]
    simp [countOcc, countOcc_jsListErase]
    omega
  · intro roots hroot
    have hkey : rootSortKey roots (recentRootsList (cacheSelection c dir root)) root = 0 := by
      rw [rootSortKey, hlist]
      simp [jsIndexOf]
    have hpw := pairwise_stableSortBy
      (rootSortKey roots (recentRootsList (cacheSelection c dir root))) roots
    have hperm := perm_stableSortBy
      (rootSortKey roots (recentRootsList (cacheSelection c dir root))) roots
    have hmem : root ∈ sortRoots roots (recentRootsList (cacheSelection c dir root)) :=
      hperm.mem_iff.mpr hroot
    obtain ⟨h0, hh, hkh⟩ := head_key_zero _ _ hpw root hmem hkey
    refine ⟨h0, hh, ?_⟩
    cases hj : jsIndexOf h0.rootPath (recentRootsList (cacheSelection c dir root)) with
    | none =>
      exfalso
      rw [rootSortKey, hj] at hkh
      have hlen : roots.length ≠ 0 := by
        intro hzero
        rw [List.length_eq_zero] at hzero
        subst hzero
        cases hroot
      exact hlen hkh
    | some i =>
      rw [rootSortKey, hj] at hkh
      have hki : i = 0 := hkh
      rw [hlist] at hj
      by_cases heq : root.rootPath = h0.rootPath
      · exact heq.symm
      · exfalso
        simp only [jsIndexOf, if_neg heq] at hj
        rcases Option.map_eq_some'.mp hj with ⟨j, _, hj2⟩
        omega

/-- Witness for C6: a cache whose recentRoots holds the path of demoRootA
once, selection of demoRootA, and a two-root workspace. -/
theorem c6_cacheSelection_witness :
    ∃ r, (sortRoots [demoRootB, demoRootA]
        (recentRootsList (cacheSelection ⟨none, some (JSValue.arr ["/b", "/a"])⟩
          demoDir demoRootA))).head? = some r ∧
      r.rootPath = demoRootA.rootPath :=
  (c6_cacheSelection_recent_first ⟨none, some (JSValue.arr ["/b", "/a"])⟩
      demoDir demoRootA (by decide)).2.2
    [demoRootB, demoRootA] (by decide)

/-- Appending to the files table always leaves the path among the file keys. -/
theorem mem_map_fst_appendEntry (p : List String) (data : List Char) :
    ∀ files : List (List String × List Char),
      p ∈ (appendEntry p data files).map Prod.fst := by
  intro files
  induction files with
  | nil => simp [appendEntry]
  | cons e rest ih =>
    obtain ⟨q, c⟩ := e
    simp only [appendEntry]
    by_cases h : q = p
    · rw [if_pos h]
      simp only [List.map_cons, List.mem_cons]
      exact Or.inl h.symm
    · rw [if_neg h]
      simp only [List.map_cons, List.mem_cons]
      exact Or.inr ih

/-- On a nonexistent file path, createFileOrFolder makes the parent chain then
appends the empty file. -/
theorem createFileOrFolder_file_eq (p : List String) (fs : FileSystem)
    (hnot : pathExistsB p fs = false) :
    createFileOrFolder ⟨p, false⟩ fs =
      appendFileSync p [] (mkdirpSync p.dropLast fs) := by
  simp [createFileOrFolder, isFolderDescriptor, dirnameComponents, hnot]

/-- C7: when the typed relative path does not exist under the chosen base
directory, createFileOrFolder creates every intermediate directory, that is
every proper nonempty prefix of the joined path, and creates the file. -/
theorem c7_creates_intermediate_dirs (base : DirectoryOption) (input : List String)
    (fs : FileSystem)
    (hnot : pathExistsB (base.fsLocation.absolute ++ input) fs = false) :
    (∀ k : Nat, k + 1 < (base.fsLocation.absolute ++ input).length →
      (base.fsLocation.absolute ++ input).take (k + 1) ∈
        (createFileOrFolder (showInputBoxPath base input false) fs).dirs) ∧
    (base.fsLocation.absolute ++ input) ∈
      ((createFileOrFolder (showInputBoxPath base input false) fs).files.map Prod.fst) := by
  have heq : createFileOrFolder (showInputBoxPath base input false) fs =
      appendFileSync (base.fsLocation.absolute ++ input) []
        (mkdirpSync (base.fsLocation.absolute ++ input).dropLast fs) :=
    createFileOrFolder_file_eq (base.fsLocation.absolute ++ input) fs hnot
  rw [heq]
  constructor
  · intro k hk
    show (base.fsLocation.absolute ++ input).take (k + 1) ∈
      ((List.range (base.fsLocation.absolute ++ input).dropLast.length).map
        fun j => (base.fsLocation.absolute ++ input).dropLast.take (j + 1)) ++ fs.dirs
    apply List.mem_append_left
    apply List.mem_map.mpr
    refine ⟨k, List.mem_range.mpr ?_, ?_⟩
    · rw [List.length_dropLast]
      omega
    · rw [List.dropLast_eq_take, List.take_take]
      congr 1
      have hlen : k + 1 ≤ (base.fsLocation.absolute ++ input).length - 1 := by omega
      exact Nat.min_eq_left hlen
  · exact mem_map_fst_appendEntry (base.fsLocation.absolute ++ input) [] _

/-- Witness for C7: creating x over y over z under the demo base in an empty
filesystem. -/
theorem c7_creates_intermediate_dirs_witness :
    (∀ k : Nat, k + 1 < (demoDir.fsLocation.absolute ++ ["x", "y", "z"]).length →
      (demoDir.fsLocation.absolute ++ ["x", "y", "z"]).take (k + 1) ∈
        (createFileOrFolder (showInputBoxPath demoDir ["x", "y", "z"] false) ⟨[], []⟩).dirs) ∧
    (demoDir.fsLocation.absolute ++ ["x", "y", "z"]) ∈
      ((createFileOrFolder (showInputBoxPath demoDir ["x", "y", "z"] false)
        ⟨[], []⟩).files.map Prod.fst) :=
  c7_creates_intermediate_dirs demoDir ["x", "y", "z"] ⟨[], []⟩ (by decide)

/-- C9: createFileOrFolder leaves the filesystem exactly as it was when the
path already exists: no directory is created and no file content changes. -/
theorem c9_existing_path_unchanged (p : AbsPath) (fs : FileSystem)
    (hex : pathExistsB p.components fs = true) :
    createFileOrFolder p fs = fs := by
  simp [createFileOrFolder, hex]

/-- Witness for C9: an existing directory path in a small filesystem. -/
theorem c9_existing_path_unchanged_witness :
    createFileOrFolder ⟨["a"], false⟩ ⟨[["a"]], [(["b"], ['x'])]⟩ =
      ⟨[["a"]], [(["b"], ['x'])]⟩ :=
  c9_existing_path_unchanged ⟨["a"], false⟩ ⟨[["a"]], [(["b"], ['x'])]⟩ (by decide)

/-- Unfolding equation of the gitignore walk. -/
theorem walkup_eq (hasG : List String → Bool) (dir : List String)
    (found : List (List String)) :
    walkupGitignores hasG dir found =
      if dir = parentDir dir then
        (if hasG dir then found ++ [dir ++ [gitignoreName]] else found)
      else walkupGitignores hasG (parentDir dir)
        (if hasG dir then found ++ [dir ++ [gitignoreName]] else found) := by
  rw [walkupGitignores]

/-- The ancestor chain of the filesystem root is the root alone. -/
theorem ancestors_nil : ancestors [] = [[]] := by
  rw [ancestors]
  exact dif_pos rfl

/-- The ancestor chain of a nonempty directory starts with the directory. -/
theorem ancestors_cons (dir : List String) (h : dir ≠ []) :
    ancestors dir = dir :: ancestors dir.dropLast := by
  rw [ancestors]
  exact dif_neg h

/-- The gitignore walk written against the ancestor chain, by strong induction
on the directory depth. -/
theorem walkup_spec_aux (hasG : List String → Bool) :
    ∀ (n : Nat) (dir : List String), dir.length ≤ n → ∀ found,
      walkupGitignores hasG dir found =
        found ++ ((ancestors dir).filter hasG).map (fun d => d ++ [gitignoreName]) := by
  intro n
  induction n with
  | zero =>
    intro dir hlen found
    have hdir : dir = [] := List.length_eq_zero.mp (Nat.le_zero.mp hlen)
    subst hdir
    rw [walkup_eq, if_pos (show ([] : List String) = parentDir [] from rfl), ancestors_nil]
    by_cases hg : hasG []
    · rw [if_pos hg, List.filter_cons_of_pos hg]
      simp
    · rw [if_neg hg, List.filter_cons_of_neg (by simpa using hg)]
      simp
  | succ n ih =>
    intro dir hlen found
    by_cases hdir : dir = []
    · subst hdir
      rw [walkup_eq, if_pos (show ([] : List String) = parentDir [] from rfl), ancestors_nil]
      by_cases hg : hasG []
      · rw [if_pos hg, List.filter_cons_of_pos hg]
        simp
      · rw [if_neg hg, List.filter_cons_of_neg (by simpa using hg)]
        simp
    · have hne : ¬(dir = parentDir dir) := by
        intro he
        have hl := congrArg List.length he
        rw [parentDir, List.length_dropLast] at hl
        have hpos : 0 < dir.length := List.length_pos.mpr hdir
        omega
      have hplen : (parentDir dir).length ≤ n := by
        rw [parentDir, List.length_dropLast]
        omega
      rw [walkup_eq, if_neg hne, ih (parentDir dir) hplen, ancestors_cons dir hdir]
      by_cases hg : hasG dir
      · rw [if_pos hg, List.filter_cons_of_pos hg]
        simp [parentDir, List.append_assoc]
      · rw [if_neg hg, List.filter_cons_of_neg (by simpa using hg)]
        simp [parentDir]

/-- C8: the gitignore walk stops exactly when a directory equals its own
parent, the filesystem root, and returns, after the initial accumulator, the
gitignore path of every directory on the ancestor chain that has one. The
recursion terminates for every input because the chain shortens at each step,
as established by the well-founded definition of walkupGitignores. -/
theorem c8_walkup_terminates_spec (hasGitignore : List String → Bool) (dir : List String) :
    (∀ d : List String, parentDir d = d ↔ d = []) ∧
    ∀ found, walkupGitignores hasGitignore dir found =
      found ++ ((ancestors dir).filter hasGitignore).map (fun d => d ++ [gitignoreName]) := by
  constructor
  · intro d
    constructor
    · intro he
      by_contra hne
      have hl := congrArg List.length he
      rw [parentDir, List.length_dropLast] at hl
      have hpos : 0 < d.length := List.length_pos.mpr hne
      omega
    · intro he
      subst he
      rfl
  · intro found
    exact walkup_spec_aux hasGitignore dir.length dir (Nat.le_refl _) found

/-- Witness for C8: a two-component directory whose walk finds two gitignore
files. -/
theorem c8_walkup_witness :
    walkupGitignores (fun d => d.length == 1) ["u", "v"] [] =
      [] ++ ((ancestors ["u", "v"]).filter (fun d => d.length == 1)).map
        (fun d => d ++ [gitignoreName]) :=
  (c8_walkup_terminates_spec (fun d => d.length == 1) ["u", "v"]).2 []

/-- C10: lastSelection returns the cached last entry only when present with
typeof object, removes a present non-object entry and returns nothing, and
leaves the cache untouched when no entry is present. -/
theorem c10_lastSelection_cases (c : CacheState) :
    (c.last = none → lastSelection c = (none, c)) ∧
    (∀ v : JSValue, c.last = some v → typeofIsObject v = true →
      lastSelection c = (some v, c)) ∧
    (∀ v : JSValue, c.last = some v → typeofIsObject v = false →
      lastSelection c = (none, { c with last := none })) := by
  refine ⟨?_, ?_, ?_⟩
  · intro h
    simp [lastSelection, h]
  · intro v hv ht
    simp [lastSelection, hv, ht]
  · intro v hv ht
    simp [lastSelection, hv, ht]

/-- Witness for C10: a cache holding a string under last gets the entry
forgotten and nothing returned. -/
theorem c10_lastSelection_witness :
    lastSelection ⟨some (JSValue.str "x"), none⟩ = (none, ⟨none, none⟩) :=
  (c10_lastSelection_cases ⟨some (JSValue.str "x"), none⟩).2.2 (JSValue.str "x") rfl rfl
